import Mathlib

/-!
Shallow embedding of the decklist-tracker crafting engine
(src/src/lib.rs, src/src/collection.rs, src/src/craft_suggester.rs).

Modelling conventions:
* Rust `u8`/`u32`/`usize` quantities (card amounts, wildcard counts, limits)
  are modelled as `Nat`; `saturating_sub` is Lean's truncated `Nat`
  subtraction, which coincides with it.  Wrap-around of machine additions is
  not modelled (no claim exercises it); the one place where word width is
  semantically load-bearing - the `1usize << j` deck masks of
  `recommend_inner` - is modelled explicitly with the checked-overflow
  semantics (`Option`, `none` = overflow panic at shift amounts >= 64).
* Rust `HashMap` values are modelled as association lists looked up by first
  match; insertion order is the canonical order.  All properties proved about
  them are insensitive to the iteration order that a real `HashMap` leaves
  unspecified.
* `BTreeSet<(&String, u8)>` is modelled as a lexicographically sorted
  deduplicated list; Rust compares `String` by UTF-8 bytes, which agrees with
  lexicographic comparison of code points, modelled via `Char.val`.
* `bitvec` boolean `|` between vectors of different lengths keeps the length
  of the left operand (the zipped traversal of `BitOrAssign`); equality of
  `BitVec`s compares length and bits, i.e. plain list equality.
* Fallible code (`Result`, `unwrap` panics) is modelled with `Option`:
  `none` is an error/panic outcome.
* `f32` wildcard coefficients are modelled over `Rat` (exact arithmetic);
  rounding of `f32` is not modelled.  The facts proved about them (sign,
  zero cases) are exact in `f32` as well.
-/

/-- `Rarity` from src/src/lib.rs (declaration order gives the derived `Ord`). -/
inductive Rarity where
  | common
  | uncommon
  | rare
  | mythic
  | land
  | unknown
deriving DecidableEq

/-- Ordinal of a rarity: the derived `Ord` of the Rust enum. -/
def rarityOrd : Rarity → Nat
  | .common => 0
  | .uncommon => 1
  | .rare => 2
  | .mythic => 3
  | .land => 4
  | .unknown => 5

/-- One owned printing of a card: the `(u8, Rarity, String)` triple stored per
card name in `Collection::content`. -/
structure Printing where
  amount : Nat
  rarity : Rarity
  set : String
deriving DecidableEq

/-- `CardData` from src/src/lib.rs. -/
structure CardData where
  amount : Nat
  name : String
  rarity : Rarity
  set : String
deriving DecidableEq

/-- `Deck` from src/src/lib.rs: parallel amount/name vectors for mainboard
and sideboard. -/
structure Deck where
  name : String
  companion : Option String
  amounts_main : List Nat
  names_main : List String
  amounts_side : List Nat
  names_side : List String
deriving DecidableEq

/-- First-match lookup in an association list (`HashMap::get`). -/
def alLookup {β : Type} (k : String) : List (String × β) → Option β
  | [] => none
  | (k2, v) :: rest => if k2 = k then some v else alLookup k rest

/-- `HashMap::entry(name).or_insert(0) += amount`, specialised to the
coalescing done by `Deck::cards`: bump the first entry with the given key or
append a fresh one. -/
def upsertAdd (m : List (String × Nat)) (k : String) (v : Nat) : List (String × Nat) :=
  match m with
  | [] => [(k, v)]
  | (k2, v2) :: rest => if k2 = k then (k2, v2 + v) :: rest else (k2, v2) :: upsertAdd rest k v

/-- The mainboard entries of a deck, as (name, amount) pairs in file order. -/
def Deck.mainEntries (d : Deck) : List (String × Nat) :=
  (d.amounts_main.zip d.names_main).map (fun p => (p.2, p.1))

/-- The sideboard entries of a deck, as (name, amount) pairs in file order. -/
def Deck.sideEntries (d : Deck) : List (String × Nat) :=
  (d.amounts_side.zip d.names_side).map (fun p => (p.2, p.1))

/-- The wishboard trigger test of `Deck::cards`:
`self.names_main.contains(&"Karn, the Great Creator".to_owned())`. -/
def Deck.hasWishboard (d : Deck) : Bool :=
  d.names_main.contains ("Karn, the Great Creator")

/-- Fold a batch of (name, amount) entries into the coalescing map. -/
def addEntries (m : List (String × Nat)) (l : List (String × Nat)) : List (String × Nat) :=
  l.foldl (fun acc p => upsertAdd acc p.1 p.2) m

/-- `Deck::cards` from src/src/lib.rs: mainboard always; sideboard when the
sideboard is not ignored; and, when it is ignored but the mainboard holds the
wishboard trigger card, the first 7 sideboard entries in file order.  The
result is the content of the `HashMap<&String, u8>`, in first-insertion
order (a real `HashMap` iterates in unspecified order; everything proved
below is order-insensitive). -/
def Deck.cards (d : Deck) (ignore_sideboard : Bool) : List (String × Nat) :=
  let m := addEntries [] d.mainEntries
  let m := if ignore_sideboard then m else addEntries m d.sideEntries
  if ignore_sideboard && d.hasWishboard then addEntries m (d.sideEntries.take 7) else m

/-- Modelled from the spec: `Deck::contains(card_name, ignore_sideboard)`
(section 4.3) is called by `build_matrix` in src/src/craft_suggester.rs but
its definition is not among the given sources.  Per the spec it is "true if
the name appears in mainboard, or in sideboard when not ignored". -/
def Deck.containsCard (d : Deck) (card_name : String) (ignore_sideboard : Bool) : Bool :=
  d.names_main.contains card_name ||
    (!ignore_sideboard && d.names_side.contains card_name)

/-- Total amount held under a key by a list of (name, amount) entries. -/
def keyTotal (k : String) (l : List (String × Nat)) : Nat :=
  l.foldr (fun p acc => if p.1 = k then p.2 + acc else acc) 0

/-- Whether a key occurs among (name, amount) entries. -/
def keyOccurs (k : String) (l : List (String × Nat)) : Bool :=
  l.any (fun p => p.1 = k)

theorem alLookup_upsertAdd (m : List (String × Nat)) (k k2 : String) (v : Nat) :
    alLookup k (upsertAdd m k2 v) =
      if k2 = k then some ((alLookup k m).getD 0 + v) else alLookup k m := by
  induction m with
  | nil =>
    by_cases h : k2 = k <;> simp [upsertAdd, alLookup, h]
  | cons p rest ih =>
    obtain ⟨k3, v3⟩ := p
    by_cases h3 : k3 = k2
    · subst h3
      by_cases h : k3 = k
      · subst h
        simp [upsertAdd, alLookup]
      · simp [upsertAdd, alLookup, h]
    · by_cases h : k3 = k
      · subst h
        have hne : ¬ k2 = k3 := fun he => h3 he.symm
        simp [upsertAdd, alLookup, h3, hne]
      · simp [upsertAdd, alLookup, h3, h, ih]

theorem keyTotal_cons_eq (k : String) (v : Nat) (rest : List (String × Nat)) :
    keyTotal k ((k, v) :: rest) = v + keyTotal k rest := by
  simp [keyTotal]

theorem keyTotal_cons_ne (k k2 : String) (v : Nat) (rest : List (String × Nat))
    (h : ¬ k2 = k) : keyTotal k ((k2, v) :: rest) = keyTotal k rest := by
  simp [keyTotal, h]

theorem keyOccurs_cons_eq (k : String) (v : Nat) (rest : List (String × Nat)) :
    keyOccurs k ((k, v) :: rest) = true := by
  simp [keyOccurs]

theorem keyOccurs_cons_ne (k k2 : String) (v : Nat) (rest : List (String × Nat))
    (h : ¬ k2 = k) : keyOccurs k ((k2, v) :: rest) = keyOccurs k rest := by
  simp [keyOccurs, h]

theorem alLookup_addEntries (l : List (String × Nat)) (m : List (String × Nat)) (k : String) :
    alLookup k (addEntries m l) =
      match alLookup k m with
      | some v => some (v + keyTotal k l)
      | none => if keyOccurs k l then some (keyTotal k l) else none := by
  induction l generalizing m with
  | nil =>
    cases h : alLookup k m <;> simp [addEntries, keyTotal, keyOccurs, h]
  | cons p rest ih =>
    obtain ⟨k2, v2⟩ := p
    have step : addEntries m ((k2, v2) :: rest) = addEntries (upsertAdd m k2 v2) rest := by
      simp [addEntries]
    rw [step, ih]
    rw [alLookup_upsertAdd]
    by_cases h2 : k2 = k
    · subst h2
      rw [if_pos rfl, keyTotal_cons_eq, keyOccurs_cons_eq]
      cases h : alLookup k2 m
      all_goals simp
      all_goals omega
    · rw [if_neg h2, keyTotal_cons_ne k k2 v2 rest h2, keyOccurs_cons_ne k k2 v2 rest h2]

theorem keyTotal_eq_zero_of_not_occurs (k : String) (l : List (String × Nat))
    (h : keyOccurs k l = false) : keyTotal k l = 0 := by
  induction l with
  | nil => simp [keyTotal]
  | cons p rest ih =>
    obtain ⟨k2, v2⟩ := p
    by_cases h2 : k2 = k
    · subst h2
      rw [keyOccurs_cons_eq] at h
      cases h
    · rw [keyOccurs_cons_ne k k2 v2 rest h2] at h
      rw [keyTotal_cons_ne k k2 v2 rest h2]
      exact ih h

theorem cards_true_eq (d : Deck) :
    d.cards true =
      if d.hasWishboard then addEntries (addEntries [] d.mainEntries) (d.sideEntries.take 7)
      else addEntries [] d.mainEntries := by
  by_cases hw : d.hasWishboard <;> simp [Deck.cards, hw]

/-- C8: `Deck::cards` with `ignore_sideboard = true` keeps exactly the
mainboard copies, except that when the mainboard holds the wishboard trigger
card ("Karn, the Great Creator") the copies of the first 7 sideboard entries
in file order are added on top, coalesced per card name: for every deck and
card name, the looked-up total is the mainboard total plus (if the trigger is
present) the total of the first 7 sideboard entries, and a name with no such
occurrence is absent. -/
theorem c8_cards_ignore_sideboard_wishboard (d : Deck) (name : String) :
    alLookup name (d.cards true) =
      (if keyOccurs name d.mainEntries ||
          (d.hasWishboard && keyOccurs name (d.sideEntries.take 7)) then
        some (keyTotal name d.mainEntries +
          (if d.hasWishboard then keyTotal name (d.sideEntries.take 7) else 0))
      else none) := by
  rw [cards_true_eq]
  cases hw : d.hasWishboard
  · cases hm : keyOccurs name d.mainEntries
    · simp [alLookup_addEntries, alLookup, hm]
    · simp [alLookup_addEntries, alLookup, hm]
  · cases hm : keyOccurs name d.mainEntries
    · cases hs : keyOccurs name (d.sideEntries.take 7)
      · simp [alLookup_addEntries, alLookup, hm, hs]
      · simp [alLookup_addEntries, alLookup, hm, hs,
          keyTotal_eq_zero_of_not_occurs name d.mainEntries hm]
    · simp [alLookup_addEntries, alLookup, hm]

/-- `str::trim_start_matches("A-")`: repeatedly remove a leading "A-". -/
def stripAltArt : List Char → List Char
  | 'A' :: '-' :: rest => stripAltArt rest
  | l => l

/-- Whether the first list is a prefix of the second. -/
def beginsWith : List Char → List Char → Bool
  | [], _ => true
  | _ :: _, [] => false
  | a :: as, b :: bs => a == b && beginsWith as bs

/-- `str::split_once(sep)` restricted to the part before the separator:
the characters before the first occurrence of `sep`, or `none` when `sep`
does not occur. -/
def splitOnceBefore (sep : List Char) : List Char → Option (List Char)
  | [] => none
  | c :: rest =>
    if beginsWith sep (c :: rest) then some []
    else
      match splitOnceBefore sep rest with
      | some pre => some (c :: pre)
      | none => none

/-- `simplified_name` from src/src/collection.rs.  Note the source quirk kept
here faithfully: when the "A-"-stripped name contains no " // ", the function
falls back to the ORIGINAL name (`map_or(name.as_ref(), ...)`), so the "A-"
prefix is only actually dropped when a " // " is present. -/
def simplified_name (name : String) : String :=
  let stripped := stripAltArt name.data
  match splitOnceBefore (" // ".data) stripped with
  | some pre => String.mk pre
  | none => name

/-- `str::trim`: drop whitespace from both ends (modelled with
`Char.isWhitespace`). -/
def trimName (s : String) : String :=
  String.mk (((s.data.dropWhile Char.isWhitespace).reverse.dropWhile
    Char.isWhitespace).reverse)

/-- `Collection` from src/src/collection.rs: `HashMap<String, Vec<(u8, Rarity,
String)>>`, modelled as an association list in insertion order. -/
structure Collection where
  content : List (String × List Printing)
deriving DecidableEq

/-- Inner loop of `Collection::insert_inner`: overwrite the first printing
with the same set name, else push at the end of the group. -/
def updateGroup (g : List Printing) (p : Printing) : List Printing :=
  match g with
  | [] => [p]
  | q :: rest => if q.set = p.set then p :: rest else q :: updateGroup rest p

/-- `Collection::insert_inner`: upsert a printing under a card name
(`entry(name).or_default()` then set-keyed overwrite-or-push). -/
def insert_inner : List (String × List Printing) → String → Printing →
    List (String × List Printing)
  | [], name, p => [(name, [p])]
  | (k, g) :: rest, name, p =>
    if k = name then (k, updateGroup g p) :: rest else (k, g) :: insert_inner rest name p

/-- The five basic-land names force-classified as `Rarity::Land` by
`Collection::insert`. -/
def basicLands : List String :=
  ["Plains", "Island", "Swamp", "Mountain", "Forest"]

/-- `Collection::insert` from src/src/collection.rs: trim the name, coerce
basic lands to rarity Land, then upsert under both the simplified and the
literal (trimmed) name. -/
def Collection.insert (c : Collection) (cd : CardData) : Collection :=
  let card_name := trimName cd.name
  let rarity := if basicLands.contains card_name then Rarity.land else cd.rarity
  let c1 := insert_inner c.content (simplified_name card_name) ⟨cd.amount, rarity, cd.set⟩
  ⟨insert_inner c1 card_name ⟨cd.amount, rarity, cd.set⟩⟩

/-- Inner loop of `Collection::merge`: `insert` every printing of one group
under its card name. -/
def mergeRows (acc : List (String × List Printing)) (name : String) :
    List Printing → List (String × List Printing)
  | [] => acc
  | r :: rest =>
    mergeRows ((Collection.insert ⟨acc⟩ ⟨r.amount, name, r.rarity, r.set⟩).content) name rest

/-- Outer loop of `Collection::merge` over the other collection's entries. -/
def mergeGroups (acc : List (String × List Printing)) :
    List (String × List Printing) → List (String × List Printing)
  | [] => acc
  | e :: rest => mergeGroups (mergeRows acc e.1 e.2) rest

/-- `Collection::merge`: re-`insert` every (name, printing) of `other`. -/
def Collection.merge (c other : Collection) : Collection :=
  ⟨mergeGroups c.content other.content⟩

/-- Raw push used by `FromIterator for Collection`:
`entry(name).or_insert_with(Vec::new).push(row)` - no trimming, no
simplification, no set-keyed dedup, no land coercion. -/
def pushRow : List (String × List Printing) → String → Printing →
    List (String × List Printing)
  | [], name, p => [(name, [p])]
  | (k, g) :: rest, name, p =>
    if k = name then (k, g ++ [p]) :: rest else (k, g) :: pushRow rest name p

/-- `Collection::from_iter` from src/src/collection.rs. -/
def Collection.fromIter (l : List (String × Nat × Rarity × String)) : Collection :=
  ⟨l.foldl (fun acc e => pushRow acc e.1 ⟨e.2.1, e.2.2.1, e.2.2.2⟩) []⟩

/-- `Collection::get`: look up under the simplified name; `none` is the
"Unknown card found" error. -/
def Collection.get (c : Collection) (name : String) : Option (List Printing) :=
  alLookup (simplified_name name) c.content

/-- Sum of owned amounts across a card's printings
(`card_group.iter().map(|(amount, _, _)| amount).sum()`). -/
def ownedTotal (g : List Printing) : Nat :=
  (g.map (fun p => p.amount)).sum

/-- Head step of `min_by_key`: keep the head when its key is less than or
equal to the best of the tail (first-minimum tie-break). -/
def minByHead (p : Printing) : Option (String × Rarity) → Option (String × Rarity)
  | none => some (p.set, p.rarity)
  | some sr => if rarityOrd p.rarity ≤ rarityOrd sr.2 then some (p.set, p.rarity) else some sr

/-- `min_by_key(|(_, rarity)| *rarity)` over the (set_name, rarity) pairs of
a card group: the first printing achieving the lowest rarity ordinal, `none`
on an empty group (where the source would panic on `unwrap`). -/
def minByRarity : List Printing → Option (String × Rarity)
  | [] => none
  | p :: rest => minByHead p (minByRarity rest)

/-- One row of `Collection::missing`'s output:
`(&String, u8, Rarity, &String)` = (name, missing amount, cheapest rarity,
representative set name). -/
structure MissingEntry where
  name : String
  amount : Nat
  rarity : Rarity
  set : String
deriving DecidableEq

/-- The loop body of `Collection::missing` over the deck's coalesced card
list.  `none` models the propagated unknown-card error (and the panic on an
empty printing group, unreachable through the module's constructors). -/
def missingGo (c : Collection) : List (String × Nat) → Option (List MissingEntry)
  | [] => some []
  | e :: rest =>
    (c.get e.1).bind fun g =>
      (minByRarity g).bind fun sr =>
        (missingGo c rest).bind fun tail =>
          some (⟨e.1, e.2 - ownedTotal g, sr.2, sr.1⟩ :: tail)

/-- `Collection::missing` from src/src/collection.rs. -/
def Collection.missing (c : Collection) (d : Deck) (ignore_sideboard : Bool) :
    Option (List MissingEntry) :=
  missingGo c (d.cards ignore_sideboard)

/-- `Collection::count_missing_of_rarity`: total missing amount over the
entries whose (cheapest) rarity equals the requested one. -/
def Collection.count_missing_of_rarity (c : Collection) (d : Deck)
    (ignore_sideboard : Bool) (r : Rarity) : Option Nat :=
  (c.missing d ignore_sideboard).map
    (fun l => ((l.filter (fun e => decide (e.rarity = r))).map (fun e => e.amount)).sum)

/-- Byte-order comparison of strings (Rust `String: Ord`); UTF-8 byte order
coincides with lexicographic code-point order. -/
def charListLt : List Char → List Char → Bool
  | [], [] => false
  | [], _ :: _ => true
  | _ :: _, [] => false
  | a :: as, b :: bs =>
    if a.val < b.val then true else if b.val < a.val then false else charListLt as bs

/-- `a < b` for strings under the Rust ordering. -/
def strLt (a b : String) : Bool := charListLt a.data b.data

/-- The `Ord` of `(&String, u8)` rows used by the `BTreeSet` row index. -/
def rowLt (a b : String × Nat) : Bool :=
  strLt a.1 b.1 || (a.1 == b.1 && decide (a.2 < b.2))

/-- `BTreeSet::insert` on the sorted, deduplicated row list. -/
def rowInsert (r : String × Nat) : List (String × Nat) → List (String × Nat)
  | [] => [r]
  | x :: rest =>
    if rowLt r x then r :: x :: rest
    else if r = x then x :: rest
    else x :: rowInsert r rest

/-- `for n in 1..=amount { rows_index.insert((name, n)); }`. -/
def insertCopies (name : String) (amount : Nat) (rows : List (String × Nat)) :
    List (String × Nat) :=
  (List.range amount).foldl (fun acc n => rowInsert (name, n + 1) acc) rows

/-- The deck loop of `build_rows_index`, threading the accumulated row set. -/
def build_rows_index_go (c : Collection) (ignore_sb : Bool) (target : Rarity) :
    List Deck → List (String × Nat) → Option (List (String × Nat))
  | [], rows => some rows
  | d :: rest, rows =>
    (c.missing d ignore_sb).bind fun ms =>
      build_rows_index_go c ignore_sb target rest
        (ms.foldl
          (fun rows2 e => if e.rarity = target then insertCopies e.name e.amount rows2
            else rows2)
          rows)

/-- `CraftRecommender::build_rows_index` from src/src/craft_suggester.rs:
one row per (card name, copy index) with the target rarity missing in some
deck; `none` models the `.unwrap()` panic on a missing-computation error. -/
def build_rows_index (c : Collection) (ignore_sb : Bool) (decks : List Deck)
    (target : Rarity) : Option (List (String × Nat)) :=
  build_rows_index_go c ignore_sb target decks []

/-- `build_matrix` from src/src/craft_suggester.rs: one column (bit vector
over the rows) per deck, with `column[i] = deck.contains(row_name, false)` -
plain containment, `ignore_sideboard` hard-coded to `false`. -/
def build_matrix (decks : List Deck) (rows_index : List (String × Nat)) :
    List (List Bool) :=
  decks.map (fun d => rows_index.map (fun r => d.containsCard r.1 false))

/-- `bitvec` `|` with the left operand's length kept: positions beyond the
shorter operand are taken from the left operand unchanged. -/
def bvOr : List Bool → List Bool → List Bool
  | [], _ => []
  | a :: as, [] => a :: as
  | a :: as, b :: bs => (a || b) :: bvOr as bs

/-- The columns whose index bit is set in the selection
(`filter_map(|(i, c)| (new_sel[i]).then_some(c))`). -/
def selectedColumns (cols : List (List Bool)) (sel : List Bool) : List (List Bool) :=
  (cols.enum.filter (fun p => sel.getD p.1 false)).map (fun p => p.2)

/-- `count_nonzero` from `recommend_inner`: population count of the
column-wise OR of the selected columns (seeded with `bitvec!(0; rows)`). -/
def count_nonzero (cols : List (List Bool)) (sel : List Bool) : Nat :=
  ((selectedColumns cols sel).foldl bvOr
    (List.replicate (cols.headD []).length false)).count true

/-- The 64 bits (Lsb0) of `1usize << j` for `j < 64`. -/
def deckMaskBits (j : Nat) : List Bool :=
  (List.range 64).map (fun i => decide (i = j))

/-- `BitVec::from_element(1usize << j)`: `none` models the checked shift
overflow (panic) at `j >= 64`. -/
def deckMask (j : Nat) : Option (List Bool) :=
  if j < 64 then some (deckMaskBits j) else none

/-- The `possible` candidate list of `recommend_inner`: all selections
obtained by OR-ing in one deck mask, that differ from the current selection
and satisfy both budget bounds.  `none` models the panic of `1usize << j`
when more than 64 decks are in play (the eager `collect` evaluates every
`j` in `0..columns_rares.len()`). -/
def possible_moves (colsR colsM : List (List Bool)) (rares_limit mythics_limit : Nat)
    (sel : List Bool) : Option (List (List Bool)) :=
  if 64 < colsR.length then none
  else some
    ((((List.range colsR.length).map (fun j => bvOr sel (deckMaskBits j))).filter
        (fun t => decide (t ≠ sel))).filter
      (fun t => decide (count_nonzero colsR t ≤ rares_limit ∧
          count_nonzero colsM t ≤ mythics_limit)))

/-- First-match lookup in the memo table (`HashMap<BitVec, usize>::get`). -/
def memLookup (s : List Bool) : List (List Bool × Nat) → Option Nat
  | [] => none
  | e :: rest => if e.1 = s then some e.2 else memLookup s rest

/-- One unfolding of `recommend_inner`, parameterised by the recursive
call: memo hit, else terminal insert, else fold the recursion over the
candidates and insert the best value. -/
def visitStep
    (rec : List (List Bool × Nat) → List Bool → Option (List (List Bool × Nat) × Nat))
    (colsR colsM : List (List Bool)) (rares_limit mythics_limit : Nat)
    (mem : List (List Bool × Nat)) (s : List Bool) :
    Option (List (List Bool × Nat) × Nat) :=
  match memLookup s mem with
  | some v => some (mem, v)
  | none =>
    match possible_moves colsR colsM rares_limit mythics_limit s with
    | none => none
    | some ps =>
      if ps.isEmpty then some ((s, s.count true) :: mem, s.count true)
      else
        match ps.foldl
            (fun acc t =>
              match acc with
              | none => none
              | some mb =>
                match rec mb.1 t with
                | none => none
                | some mv => some (mv.1, max mb.2 mv.2))
            (some (mem, 0)) with
        | none => none
        | some mb => some ((s, mb.2) :: mb.1, mb.2)

/-- `CraftRecommender::recommend_inner`: fuelled recursion (each accepted
candidate strictly grows the selection, so depth is bounded by the deck
count; the top level passes enough fuel). -/
def recommend_inner (colsR colsM : List (List Bool)) (rares_limit mythics_limit : Nat) :
    Nat → List (List Bool × Nat) → List Bool → Option (List (List Bool × Nat) × Nat)
  | 0, _, _ => none
  | fuel + 1, mem, s =>
    visitStep (recommend_inner colsR colsM rares_limit mythics_limit fuel)
      colsR colsM rares_limit mythics_limit mem s

/-- `CraftRecommender::relevant_decks`: keep the decks missing at least one
rare or mythic copy whose individual missing-rare and missing-mythic totals
fit the budgets; `none` models the `.unwrap()` panic on an unknown card. -/
def relevant_decks (c : Collection) (ignore_sb : Bool)
    (rares_limit mythics_limit : Nat) : List Deck → Option (List Deck)
  | [] => some []
  | d :: rest =>
    (c.count_missing_of_rarity d ignore_sb Rarity.rare).bind fun mr =>
      (c.count_missing_of_rarity d ignore_sb Rarity.mythic).bind fun mm =>
        (relevant_decks c ignore_sb rares_limit mythics_limit rest).bind fun tail =>
          some (if 0 < mr + mm ∧ mr ≤ rares_limit ∧ mm ≤ mythics_limit then d :: tail
            else tail)

/-- `itertools::max_set_by`: all elements comparing equal to the running
maximum, in iteration order. -/
def maxSetBy {α : Type} (cmp : α → α → Ordering) (l : List α) : List α :=
  l.foldl
    (fun acc x =>
      match acc with
      | [] => [x]
      | a :: rest =>
        match cmp x a with
        | Ordering.gt => [x]
        | Ordering.eq => (a :: rest) ++ [x]
        | Ordering.lt => a :: rest)
    []

/-- The comparator of `recommend`'s `max_set_by`: value first, then the
population count of the selection. -/
def cmpEntry (e1 e2 : List Bool × Nat) : Ordering :=
  (compare e1.2 e2.2).then (compare (e1.1.count true) (e2.1.count true))

/-- Decode a winning bitmask back into deck names
(`filter_map(|(i, deck)| (decks_code[i]).then_some(deck.name))`). -/
def selNames (decks : List Deck) (sel : List Bool) : List String :=
  (decks.enum.filter (fun p => sel.getD p.1 false)).map (fun p => p.2.name)

/-- `CraftRecommender::recommend` from src/src/craft_suggester.rs: filter the
relevant decks, build the row indices and the bit matrix, seed the starting
selection, run the memoized search, and return the name lists of all memo
entries tied for the maximum.  The output list order of a `HashMap` iteration
is unspecified in the source; the model uses its canonical memo order.
`none` models a panic/propagated error. -/
def recommend (c : Collection) (roster : List Deck) (ignore_sb : Bool)
    (rares_limit mythics_limit : Nat) (starting_sel : List String) :
    Option (List (List String)) :=
  match relevant_decks c ignore_sb rares_limit mythics_limit roster with
  | none => none
  | some decks =>
    match build_rows_index c ignore_sb decks Rarity.rare with
    | none => none
    | some all_rares =>
      match build_rows_index c ignore_sb decks Rarity.mythic with
      | none => none
      | some all_mythics =>
        match recommend_inner (build_matrix decks all_rares) (build_matrix decks all_mythics)
            rares_limit mythics_limit (decks.length + 1) []
            (decks.map (fun d => starting_sel.contains d.name)) with
        | none => none
        | some mr =>
          some ((maxSetBy cmpEntry mr.1).map (fun e => selNames decks e.1))

/-- `Wildcards` from src/src/lib.rs: the wallet of owned wildcards per
craftable rarity. -/
structure Wildcards where
  common : Nat
  uncommon : Nat
  rare : Nat
  mythic : Nat
deriving DecidableEq

/-- `Wildcards::select`. -/
def Wildcards.select (w : Wildcards) : Rarity → Nat
  | .common => w.common
  | .uncommon => w.uncommon
  | .rare => w.rare
  | .mythic => w.mythic
  | .land => 0
  | .unknown => 0

/-- The `total` of `Wildcards::coefficients`. -/
def Wildcards.total (w : Wildcards) : Nat :=
  w.common + w.uncommon + w.rare + w.mythic

/-- `WildcardCoefficients` from src/src/lib.rs; the `f32` fields are modelled
over `Rat` (exact arithmetic - `f32` rounding is not modelled; the facts
proved below are exact in `f32` too). -/
structure WildcardCoefficients where
  common : Rat
  uncommon : Rat
  rare : Rat
  mythic : Rat
deriving DecidableEq

/-- `Wildcards::coefficients`: `total / (1 + owned)` per craftable rarity. -/
def Wildcards.coefficients (w : Wildcards) : WildcardCoefficients :=
  { common := (w.total : Rat) / (1 + (w.common : Rat))
    uncommon := (w.total : Rat) / (1 + (w.uncommon : Rat))
    rare := (w.total : Rat) / (1 + (w.rare : Rat))
    mythic := (w.total : Rat) / (1 + (w.mythic : Rat)) }

/-- `WildcardCoefficients::select`: 0 for Land and Unknown. -/
def WildcardCoefficients.select (wc : WildcardCoefficients) : Rarity → Rat
  | .common => wc.common
  | .uncommon => wc.uncommon
  | .rare => wc.rare
  | .mythic => wc.mythic
  | .land => 0
  | .unknown => 0

/-- The four craftable rarities. -/
def craftable (r : Rarity) : Prop :=
  r = Rarity.common ∨ r = Rarity.uncommon ∨ r = Rarity.rare ∨ r = Rarity.mythic

theorem coef_nonneg (t o : Nat) : 0 ≤ (t : Rat) / (1 + (o : Rat)) := by
  positivity

theorem coef_pos (t o : Nat) (h : 0 < t) : 0 < (t : Rat) / (1 + (o : Rat)) := by
  have ht : (0 : Rat) < (t : Rat) := by exact_mod_cast h
  positivity

/-- C5 (counterexample): at the all-zero wallet `total_wallet = 0`, so every
coefficient is `0 / (1 + 0) = 0` and in particular not strictly positive,
refuting "the coefficient is strictly positive for every wallet" as stated.
(This is exact in `f32` as well: `0.0 / 1.0 = 0.0`.) -/
theorem c5_zero_wallet_counterexample :
    (Wildcards.coefficients ⟨0, 0, 0, 0⟩).select Rarity.rare = 0 ∧
      ¬ 0 < (Wildcards.coefficients ⟨0, 0, 0, 0⟩).select Rarity.rare := by
  constructor
  · norm_num [Wildcards.coefficients, WildcardCoefficients.select, Wildcards.total]
  · norm_num [Wildcards.coefficients, WildcardCoefficients.select, Wildcards.total]

/-- C5 (amended): for every wallet and craftable rarity the coefficient
equals `total_wallet / (1 + wallet[rarity])`; it is always nonnegative,
strictly positive whenever the wallet is not all-zero (`0 < total_wallet`),
and a rarity with zero owned yields exactly `total_wallet`. -/
theorem c5_coefficients (w : Wildcards) (r : Rarity) (hr : craftable r) :
    (Wildcards.coefficients w).select r = (w.total : Rat) / (1 + (w.select r : Rat)) ∧
      0 ≤ (Wildcards.coefficients w).select r ∧
      (0 < w.total → 0 < (Wildcards.coefficients w).select r) ∧
      (w.select r = 0 → (Wildcards.coefficients w).select r = (w.total : Rat)) := by
  rcases hr with h | h | h | h
  · subst h
    refine ⟨rfl, coef_nonneg w.total w.common, fun h => coef_pos w.total w.common h,
      fun h0 => ?_⟩
    have h1 : w.common = 0 := h0
    show (w.total : Rat) / (1 + (w.common : Rat)) = (w.total : Rat)
    rw [h1]
    norm_num
  · subst h
    refine ⟨rfl, coef_nonneg w.total w.uncommon, fun h => coef_pos w.total w.uncommon h,
      fun h0 => ?_⟩
    have h1 : w.uncommon = 0 := h0
    show (w.total : Rat) / (1 + (w.uncommon : Rat)) = (w.total : Rat)
    rw [h1]
    norm_num
  · subst h
    refine ⟨rfl, coef_nonneg w.total w.rare, fun h => coef_pos w.total w.rare h,
      fun h0 => ?_⟩
    have h1 : w.rare = 0 := h0
    show (w.total : Rat) / (1 + (w.rare : Rat)) = (w.total : Rat)
    rw [h1]
    norm_num
  · subst h
    refine ⟨rfl, coef_nonneg w.total w.mythic, fun h => coef_pos w.total w.mythic h,
      fun h0 => ?_⟩
    have h1 : w.mythic = 0 := h0
    show (w.total : Rat) / (1 + (w.mythic : Rat)) = (w.total : Rat)
    rw [h1]
    norm_num

/-- Witness for C5's amended theorem at the wallet (0,0,5,1) and rarity
common: the coefficient formula and all three sign facts hold concretely. -/
theorem c5_coefficients_witness :
    (Wildcards.coefficients ⟨0, 0, 5, 1⟩).select Rarity.common =
      ((Wildcards.total ⟨0, 0, 5, 1⟩ : Nat) : Rat) /
        (1 + ((Wildcards.select ⟨0, 0, 5, 1⟩ Rarity.common : Nat) : Rat)) ∧
      (Wildcards.coefficients ⟨0, 0, 5, 1⟩).select Rarity.common =
        ((Wildcards.total ⟨0, 0, 5, 1⟩ : Nat) : Rat) := by
  have h := c5_coefficients ⟨0, 0, 5, 1⟩ Rarity.common (Or.inl rfl)
  exact ⟨h.1, h.2.2.2 rfl⟩

/-- The representation invariant under which `merge` re-insertion is the
identity: card-name keys are distinct (a `HashMap` guarantee), every key is
fixed by trimming and by `simplified_name`, basic-land keys hold only
Land-rarity printings, and set names are distinct within a group. -/
def NormalizedCollection (c : Collection) : Prop :=
  (c.content.map (fun e => e.1)).Nodup ∧
  ∀ e ∈ c.content,
    trimName e.1 = e.1 ∧
    simplified_name e.1 = e.1 ∧
    (basicLands.contains e.1 = true → ∀ p ∈ e.2, p.rarity = Rarity.land) ∧
    (e.2.map (fun p => p.set)).Nodup

theorem updateGroup_self (g : List Printing) (p : Printing)
    (hnd : (g.map (fun q => q.set)).Nodup) (hp : p ∈ g) : updateGroup g p = g := by
  induction g with
  | nil => cases hp
  | cons q rest ih =>
    rw [List.map_cons, List.nodup_cons] at hnd
    rcases List.mem_cons.mp hp with h | h
    · subst h
      simp [updateGroup]
    · by_cases hs : q.set = p.set
      · exact absurd (hs ▸ List.mem_map.mpr ⟨p, h, rfl⟩) hnd.1
      · simp [updateGroup, hs, ih hnd.2 h]

theorem insert_inner_self (content : List (String × List Printing)) (name : String)
    (g : List Printing) (p : Printing)
    (hkeys : (content.map (fun e => e.1)).Nodup)
    (hmem : (name, g) ∈ content)
    (hnd : (g.map (fun q => q.set)).Nodup) (hp : p ∈ g) :
    insert_inner content name p = content := by
  induction content with
  | nil => cases hmem
  | cons e rest ih =>
    obtain ⟨k, g2⟩ := e
    rw [List.map_cons, List.nodup_cons] at hkeys
    by_cases hk : k = name
    · subst hk
      have hg : g2 = g := by
        rcases List.mem_cons.mp hmem with h | h
        · exact (congrArg Prod.snd h).symm
        · exact absurd (List.mem_map.mpr ⟨(k, g), h, rfl⟩) hkeys.1
      subst hg
      simp [insert_inner, updateGroup_self g2 p hnd hp]
    · have hmem2 : (name, g) ∈ rest := by
        rcases List.mem_cons.mp hmem with h | h
        · exact absurd (congrArg Prod.fst h).symm hk
        · exact h
      simp [insert_inner, hk, ih hkeys.2 hmem2]

theorem insert_self (c : Collection) (name : String) (g : List Printing) (p : Printing)
    (hc : NormalizedCollection c) (hmem : (name, g) ∈ c.content) (hp : p ∈ g) :
    Collection.insert c ⟨p.amount, name, p.rarity, p.set⟩ = c := by
  obtain ⟨hkeys, hall⟩ := hc
  obtain ⟨htrim, hsimp, hland, hsets⟩ := hall (name, g) hmem
  show (⟨insert_inner
      (insert_inner c.content (simplified_name (trimName name))
        ⟨p.amount, if basicLands.contains (trimName name) then Rarity.land else p.rarity,
          p.set⟩)
      (trimName name)
      ⟨p.amount, if basicLands.contains (trimName name) then Rarity.land else p.rarity,
        p.set⟩⟩ : Collection) = c
  rw [htrim, hsimp]
  have hrar : (if basicLands.contains name then Rarity.land else p.rarity) = p.rarity := by
    by_cases hb : basicLands.contains name = true
    · rw [if_pos hb, hland hb p hp]
    · rw [if_neg hb]
  rw [hrar]
  have hpe : (⟨p.amount, p.rarity, p.set⟩ : Printing) = p := rfl
  rw [hpe]
  rw [insert_inner_self c.content name g p hkeys hmem hsets hp]
  rw [insert_inner_self c.content name g p hkeys hmem hsets hp]

theorem mergeRows_self (c : Collection) (name : String) (g : List Printing)
    (hc : NormalizedCollection c) (hmem : (name, g) ∈ c.content) :
    ∀ rows : List Printing, (∀ r ∈ rows, r ∈ g) →
      mergeRows c.content name rows = c.content := by
  intro rows
  induction rows with
  | nil => intro _; rfl
  | cons r rest ih =>
    intro hr
    have h1 : r ∈ g := hr r (List.mem_cons_self r rest)
    have hstep : (Collection.insert ⟨c.content⟩ ⟨r.amount, name, r.rarity, r.set⟩).content
        = c.content :=
      congrArg Collection.content (insert_self c name g r hc hmem h1)
    show mergeRows
      (Collection.insert ⟨c.content⟩ ⟨r.amount, name, r.rarity, r.set⟩).content name rest
      = c.content
    rw [hstep]
    exact ih (fun x hx => hr x (List.mem_cons_of_mem r hx))

theorem mergeGroups_self (c : Collection) (hc : NormalizedCollection c) :
    ∀ l : List (String × List Printing), (∀ e ∈ l, e ∈ c.content) →
      mergeGroups c.content l = c.content := by
  intro l
  induction l with
  | nil => intro _; rfl
  | cons e rest ih =>
    intro hmem
    have he : (e.1, e.2) ∈ c.content := hmem e (List.mem_cons_self e rest)
    show mergeGroups (mergeRows c.content e.1 e.2) rest = c.content
    rw [mergeRows_self c e.1 e.2 hc he e.2 (fun r hr => hr)]
    exact ih (fun x hx => hmem x (List.mem_cons_of_mem e hx))

/-- The collection used to refute C7 as universally stated: a key, buildable
through `Collection::from_iter` (hence `from_csv`), that is not fixed by
`simplified_name`. -/
def c7bad : Collection :=
  Collection.fromIter [(("X // Y"), 1, Rarity.rare, ("S"))]

/-- C7 (counterexample): merging the collection `{"X // Y" -> [(1, Rare,
"S")]}` with itself does NOT leave it unchanged - `insert` re-keys every row
under its simplified name as well, so a brand-new key "X" appears that the
original collection does not have; the key sets (hence the collections)
differ. -/
theorem c7_merge_counterexample :
    (c7bad.merge c7bad).content ≠ c7bad.content ∧
      alLookup ("X") (c7bad.merge c7bad).content = some [⟨1, Rarity.rare, ("S")⟩] ∧
      alLookup ("X") c7bad.content = none := by
  decide

/-- C7 (amended): merging a collection with an identical copy of itself
leaves it unchanged PROVIDED the collection is normalized: distinct card-name
keys, each key fixed by trimming and by `simplified_name`, basic-land keys
holding only Land printings, and distinct set names within each group (all of
which hold for collections maintained through `Collection::insert`).  Then
`merge(c, c) = c` - same keys and per key the same printing list. -/
theorem c7_merge_idempotent (c : Collection) (hc : NormalizedCollection c) :
    c.merge c = c := by
  show (⟨mergeGroups c.content c.content⟩ : Collection) = c
  rw [mergeGroups_self c hc c.content (fun e he => he)]

/-- Witness for C7's amended theorem: a concrete two-key normalized
collection (with a multi-printing group and a basic land) is unchanged by a
self-merge. -/
theorem c7_merge_idempotent_witness :
    (Collection.merge
        ⟨[(("X"), [⟨1, Rarity.rare, ("S")⟩, ⟨2, Rarity.mythic, ("T")⟩]),
          (("Plains"), [⟨3, Rarity.land, ("P")⟩])]⟩
        ⟨[(("X"), [⟨1, Rarity.rare, ("S")⟩, ⟨2, Rarity.mythic, ("T")⟩]),
          (("Plains"), [⟨3, Rarity.land, ("P")⟩])]⟩) =
      ⟨[(("X"), [⟨1, Rarity.rare, ("S")⟩, ⟨2, Rarity.mythic, ("T")⟩]),
        (("Plains"), [⟨3, Rarity.land, ("P")⟩])]⟩ :=
  c7_merge_idempotent
    ⟨[(("X"), [⟨1, Rarity.rare, ("S")⟩, ⟨2, Rarity.mythic, ("T")⟩]),
      (("Plains"), [⟨3, Rarity.land, ("P")⟩])]⟩
    (by unfold NormalizedCollection; decide)


theorem minByRarity_cons_some (p : Printing) (rest : List Printing) :
    ∃ sr, minByRarity (p :: rest) = some sr := by
  cases h : minByRarity rest
  · exact ⟨(p.set, p.rarity), by simp [minByRarity, minByHead, h]⟩
  · rename_i sr
    by_cases hle : rarityOrd p.rarity ≤ rarityOrd sr.2
    · exact ⟨(p.set, p.rarity), by simp [minByRarity, minByHead, h, hle]⟩
    · exact ⟨sr, by simp [minByRarity, minByHead, h, hle]⟩

theorem minByRarity_none_iff (g : List Printing) : minByRarity g = none ↔ g = [] := by
  cases g with
  | nil => simp [minByRarity]
  | cons p rest =>
    obtain ⟨sr, hsr⟩ := minByRarity_cons_some p rest
    simp [hsr]

/-- What the claim says about the representative printing chosen by
`Collection::missing`: some position in the group carries the returned set
name and rarity, that rarity has the minimal ordinal in the whole group, and
every earlier position has a strictly larger ordinal (first-encountered
tie-break of `Iterator::min_by_key`). -/
def IsCheapest (g : List Printing) (s : String) (r : Rarity) : Prop :=
  ∃ i, i < g.length ∧
    (g.getD i ⟨0, Rarity.common, ("")⟩).set = s ∧
    (g.getD i ⟨0, Rarity.common, ("")⟩).rarity = r ∧
    (∀ q ∈ g, rarityOrd r ≤ rarityOrd q.rarity) ∧
    (∀ j < i, rarityOrd r < rarityOrd (g.getD j ⟨0, Rarity.common, ("")⟩).rarity)

theorem minByRarity_spec (g : List Printing) (s : String) (r : Rarity)
    (h : minByRarity g = some (s, r)) : IsCheapest g s r := by
  induction g generalizing s r with
  | nil => cases h
  | cons p rest ih =>
    rw [show minByRarity (p :: rest) = minByHead p (minByRarity rest) from rfl] at h
    cases hrest : minByRarity rest with
    | none =>
      rw [hrest] at h
      simp only [minByHead] at h
      obtain ⟨hs, hr⟩ : p.set = s ∧ p.rarity = r := by
        have := Option.some.inj h
        exact ⟨congrArg Prod.fst this, congrArg Prod.snd this⟩
      have hnil : rest = [] := (minByRarity_none_iff rest).mp hrest
      subst hnil
      refine ⟨0, by simp, by simpa using hs, by simpa using hr, ?_, by omega⟩
      intro q hq
      rcases List.mem_cons.mp hq with h1 | h1
      · subst h1
        rw [hr]
      · cases h1
    | some sr =>
      rw [hrest] at h
      obtain ⟨s2, r2⟩ := sr
      simp only [minByHead] at h
      by_cases hle : rarityOrd p.rarity ≤ rarityOrd r2
      · rw [if_pos hle] at h
        obtain ⟨hs, hr⟩ : p.set = s ∧ p.rarity = r := by
          have := Option.some.inj h
          exact ⟨congrArg Prod.fst this, congrArg Prod.snd this⟩
        obtain ⟨i2, hi2, _, _, hmin2, _⟩ := ih s2 r2 hrest
        refine ⟨0, by simp, by simpa using hs, by simpa using hr, ?_, by omega⟩
        intro q hq
        rcases List.mem_cons.mp hq with h1 | h1
        · subst h1
          rw [hr]
        · exact hr ▸ le_trans hle (hmin2 q h1)
      · rw [if_neg hle] at h
        obtain ⟨hs, hr⟩ : s2 = s ∧ r2 = r := by
          have := Option.some.inj h
          exact ⟨congrArg Prod.fst this, congrArg Prod.snd this⟩
        subst hs
        subst hr
        obtain ⟨i2, hi2, hset2, hrar2, hmin2, hstrict2⟩ := ih s2 r2 hrest
        refine ⟨i2 + 1, by simpa using hi2, by simpa using hset2,
          by simpa using hrar2, ?_, ?_⟩
        · intro q hq
          rcases List.mem_cons.mp hq with h1 | h1
          · subst h1
            omega
          · exact hmin2 q h1
        · intro j hj
          cases j with
          | zero =>
            simpa using Nat.lt_of_not_le hle
          | succ j2 =>
            simpa using hstrict2 j2 (by omega)

theorem missingGo_total (c : Collection) (ps : List (String × Nat))
    (h : ∀ p ∈ ps, ∃ g, c.get p.1 = some g ∧ g ≠ []) :
    ∃ l, missingGo c ps = some l ∧ l.length = ps.length ∧
      ∀ i < ps.length, ∀ g, c.get (ps.getD i (("") , 0)).1 = some g →
        (l.getD i ⟨(""), 0, Rarity.common, ("")⟩).name = (ps.getD i (("") , 0)).1 ∧
        (l.getD i ⟨(""), 0, Rarity.common, ("")⟩).amount =
          (ps.getD i (("") , 0)).2 - ownedTotal g ∧
        IsCheapest g (l.getD i ⟨(""), 0, Rarity.common, ("")⟩).set
          (l.getD i ⟨(""), 0, Rarity.common, ("")⟩).rarity := by
  induction ps with
  | nil =>
    refine ⟨[], rfl, rfl, ?_⟩
    intro i hi
    simp at hi
  | cons p rest ih =>
    obtain ⟨g, hg, hgne⟩ := h p (List.mem_cons_self p rest)
    obtain ⟨tail, htail, hlen, hspec⟩ := ih (fun x hx => h x (List.mem_cons_of_mem p hx))
    obtain ⟨sr, hsr⟩ : ∃ sr, minByRarity g = some sr := by
      cases g with
      | nil => exact absurd rfl hgne
      | cons q grest => exact minByRarity_cons_some q grest
    refine ⟨⟨p.1, p.2 - ownedTotal g, sr.2, sr.1⟩ :: tail, ?_, by simpa using hlen, ?_⟩
    · simp [missingGo, hg, hsr, htail]
    · intro i hi g2 hg2
      cases i with
      | zero =>
        have hgg : g2 = g := by
          have h12 : c.get p.1 = some g2 := hg2
          rw [hg] at h12
          exact (Option.some.inj h12).symm
        subst hgg
        refine ⟨rfl, rfl, ?_⟩
        have hsr2 : minByRarity g2 = some (sr.1, sr.2) := by
          simpa using hsr
        simpa using minByRarity_spec g2 sr.1 sr.2 hsr2
      | succ i2 =>
        have hi2 : i2 < rest.length := by simpa using hi
        simpa using hspec i2 hi2 g2 (by simpa using hg2)

theorem missingGo_err (c : Collection) (ps : List (String × Nat))
    (h : ∃ p ∈ ps, c.get p.1 = none) : missingGo c ps = none := by
  induction ps with
  | nil =>
    obtain ⟨p, hp, _⟩ := h
    cases hp
  | cons q rest ih =>
    obtain ⟨p, hp, hpn⟩ := h
    rcases List.mem_cons.mp hp with h1 | h1
    · subst h1
      simp [missingGo, hpn]
    · cases hq : c.get q.1 with
      | none => simp [missingGo, hq]
      | some g =>
        cases hmg : minByRarity g with
        | none => simp [missingGo, hq, hmg]
        | some sr => simp [missingGo, hq, hmg, ih ⟨p, h1, hpn⟩]

/-- C6: for every deck, collection and sideboard mode: (a) when every
required card has at least one printing in the collection, `missing` succeeds
with one entry per required card, whose missing amount equals the truncated
difference `requirement - owned-total` - i.e. `max(0, requirement − owned)`
over the integers, hence never negative - and whose set name and rarity are
those of the printing with the numerically lowest rarity ordinal among the
card's printings, first encountered on ties; (b) when some required card has
no printings at all, `missing` fails with the unknown-card error (`none`). -/
theorem c6_missing_entries (c : Collection) (d : Deck) (igs : Bool) :
    ((∀ p ∈ d.cards igs, ∃ g, c.get p.1 = some g ∧ g ≠ []) →
      ∃ l, c.missing d igs = some l ∧ l.length = (d.cards igs).length ∧
        ∀ i < (d.cards igs).length, ∀ g,
          c.get ((d.cards igs).getD i (("") , 0)).1 = some g →
          (l.getD i ⟨(""), 0, Rarity.common, ("")⟩).name =
            ((d.cards igs).getD i (("") , 0)).1 ∧
          (l.getD i ⟨(""), 0, Rarity.common, ("")⟩).amount =
            ((d.cards igs).getD i (("") , 0)).2 - ownedTotal g ∧
          ((l.getD i ⟨(""), 0, Rarity.common, ("")⟩).amount : Int) =
            max 0 ((((d.cards igs).getD i (("") , 0)).2 : Int) - (ownedTotal g : Int)) ∧
          IsCheapest g (l.getD i ⟨(""), 0, Rarity.common, ("")⟩).set
            (l.getD i ⟨(""), 0, Rarity.common, ("")⟩).rarity) ∧
    ((∃ p ∈ d.cards igs, c.get p.1 = none) → c.missing d igs = none) := by
  constructor
  · intro h
    obtain ⟨l, hl, hlen, hspec⟩ := missingGo_total c (d.cards igs) h
    refine ⟨l, hl, hlen, ?_⟩
    intro i hi g hg
    obtain ⟨h1, h2, h3⟩ := hspec i hi g hg
    refine ⟨h1, h2, ?_, h3⟩
    rw [h2]
    omega
  · intro h
    exact missingGo_err c (d.cards igs) h

/-- Scenario deck "D1": plays 4 X and 1 Z, no sideboard. -/
def deckD1 : Deck :=
  { name := ("D1"), companion := none,
    amounts_main := [4, 1], names_main := [("X"), ("Z")],
    amounts_side := [], names_side := [] }

/-- Scenario deck "D2": plays 4 Z and 2 X, no sideboard. -/
def deckD2 : Deck :=
  { name := ("D2"), companion := none,
    amounts_main := [4, 2], names_main := [("Z"), ("X")],
    amounts_side := [], names_side := [] }

/-- Scenario collection: 2 owned copies of rare X, 1 owned copy of rare Z.
So D1 is missing 2 rares (X); D2 is missing 3 rares (Z). -/
def collXZ : Collection :=
  ⟨[(("X"), [⟨2, Rarity.rare, ("S")⟩]), (("Z"), [⟨1, Rarity.rare, ("S")⟩])]⟩

/-- Witness for C6 at a concrete input: against the empty collection, D1's
required card X has no printings, and `missing` returns the unknown-card
error. -/
theorem c6_missing_entries_witness : Collection.missing ⟨[]⟩ deckD1 false = none :=
  (c6_missing_entries ⟨[]⟩ deckD1 false).2 ⟨(("X"), 4), by decide, by decide⟩

/-- C3: when `relevant_decks` succeeds, a deck is kept if and only if it is
in the roster, its missing-rare and missing-mythic totals (classified by the
cheapest-ordinal rarity that `missing` reports per card) are computable, they
sum to at least one, and each respects its budget. -/
theorem c3_relevant_decks (c : Collection) (roster : List Deck) (igs : Bool)
    (rares_limit mythics_limit : Nat) :
    ∀ l, relevant_decks c igs rares_limit mythics_limit roster = some l →
      ∀ d, (d ∈ l ↔
        d ∈ roster ∧
        ∃ mr mm, c.count_missing_of_rarity d igs Rarity.rare = some mr ∧
          c.count_missing_of_rarity d igs Rarity.mythic = some mm ∧
          0 < mr + mm ∧ mr ≤ rares_limit ∧ mm ≤ mythics_limit) := by
  induction roster with
  | nil =>
    intro l h d
    have hl : l = [] := by
      simpa [relevant_decks] using h.symm
    subst hl
    simp
  | cons d2 rest ih =>
    intro l h d
    simp only [relevant_decks] at h
    cases h1 : c.count_missing_of_rarity d2 igs Rarity.rare with
    | none =>
      rw [h1] at h
      simp at h
    | some mr =>
      rw [h1] at h
      cases h2 : c.count_missing_of_rarity d2 igs Rarity.mythic with
      | none =>
        rw [h2] at h
        simp at h
      | some mm =>
        rw [h2] at h
        cases h3 : relevant_decks c igs rares_limit mythics_limit rest with
        | none =>
          rw [h3] at h
          simp at h
        | some tail =>
          rw [h3] at h
          simp only [Option.some_bind, Option.some.injEq] at h
          by_cases hcond : 0 < mr + mm ∧ mr ≤ rares_limit ∧ mm ≤ mythics_limit
          · rw [if_pos hcond] at h
            subst h
            constructor
            · intro hd
              rcases List.mem_cons.mp hd with h4 | h4
              · subst h4
                exact ⟨List.mem_cons_self d rest, mr, mm, h1, h2, hcond.1, hcond.2.1,
                  hcond.2.2⟩
              · obtain ⟨hmem, rest2⟩ := (ih tail h3 d).mp h4
                exact ⟨List.mem_cons_of_mem d2 hmem, rest2⟩
            · rintro ⟨hd, mr2, mm2, g1, g2, gc1, gc2, gc3⟩
              rcases List.mem_cons.mp hd with h4 | h4
              · subst h4
                exact List.mem_cons_self d tail
              · exact List.mem_cons_of_mem d2
                  ((ih tail h3 d).mpr ⟨h4, mr2, mm2, g1, g2, gc1, gc2, gc3⟩)
          · rw [if_neg hcond] at h
            subst h
            constructor
            · intro hd
              obtain ⟨hmem, rest2⟩ := (ih tail h3 d).mp hd
              exact ⟨List.mem_cons_of_mem d2 hmem, rest2⟩
            · rintro ⟨hd, mr2, mm2, g1, g2, gc1, gc2, gc3⟩
              rcases List.mem_cons.mp hd with h4 | h4
              · subst h4
                rw [h1] at g1
                rw [h2] at g2
                have e1 : mr2 = mr := (Option.some.inj g1.symm)
                have e2 : mm2 = mm := (Option.some.inj g2.symm)
                subst e1
                subst e2
                exact absurd ⟨gc1, gc2, gc3⟩ hcond
              · exact (ih tail h3 d).mpr ⟨h4, mr2, mm2, g1, g2, gc1, gc2, gc3⟩

/-- Witness for C3 at the scenario: with budgets (2, 0) the filter keeps
exactly D1 (missing 2 rares), and the kept-iff-conditions instance holds for
D1 concretely. -/
theorem c3_relevant_decks_witness :
    deckD1 ∈ [deckD1] ↔
      deckD1 ∈ [deckD1, deckD2] ∧
      ∃ mr mm, collXZ.count_missing_of_rarity deckD1 false Rarity.rare = some mr ∧
        collXZ.count_missing_of_rarity deckD1 false Rarity.mythic = some mm ∧
        0 < mr + mm ∧ mr ≤ 2 ∧ mm ≤ 0 :=
  c3_relevant_decks collXZ [deckD1, deckD2] false 2 0 [deckD1] (by decide) deckD1

/-- One accepted search step: the candidate selection appears in the filtered
`possible` list computed from the current selection. -/
def StepSel (colsR colsM : List (List Bool)) (rares_limit mythics_limit : Nat)
    (s t : List Bool) : Prop :=
  t ∈ (possible_moves colsR colsM rares_limit mythics_limit s).getD []

/-- Selections reachable from the start of the search by repeatedly adding
decks through accepted candidates. -/
def ReachesSel (colsR colsM : List (List Bool)) (rares_limit mythics_limit : Nat) :
    List Bool → List Bool → Prop :=
  Relation.ReflTransGen (StepSel colsR colsM rares_limit mythics_limit)

/-- C2: every selection the search reaches by adding a deck to a previous
selection (any selection reachable from the start other than the start
itself) satisfies both budget bounds, each computed as a single global union:
the population count of the column-wise OR of the rare columns of all
included decks is at most `rares_limit`, and likewise the mythic columns
against `mythics_limit`; a candidate violating either bound is never
accepted since the `possible` list is filtered by exactly these bounds. -/
theorem c2_search_invariant (colsR colsM : List (List Bool))
    (rares_limit mythics_limit : Nat) (s0 s : List Bool)
    (h : ReachesSel colsR colsM rares_limit mythics_limit s0 s) (hne : s ≠ s0) :
    count_nonzero colsR s ≤ rares_limit ∧ count_nonzero colsM s ≤ mythics_limit := by
  rcases Relation.ReflTransGen.cases_tail h with h1 | ⟨u, _, hstep⟩
  · exact absurd h1 hne
  · unfold StepSel at hstep
    unfold possible_moves at hstep
    by_cases hk : 64 < colsR.length
    · rw [if_pos hk] at hstep
      cases hstep
    · rw [if_neg hk] at hstep
      simp only [Option.getD_some] at hstep
      have hfin := (List.mem_filter.mp hstep).2
      exact of_decide_eq_true hfin

/-- Witness for C2 at the scenario with budgets (2, 0): the selection
{D1} reached from the empty selection in one accepted step satisfies both
bounds (2 rare rows used of 2 allowed, 0 mythic rows of 0). -/
theorem c2_search_invariant_witness :
    count_nonzero (build_matrix [deckD1] [(("X"), 1), (("X"), 2)]) [true] ≤ 2 ∧
      count_nonzero (build_matrix [deckD1] ([] : List (String × Nat))) [true] ≤ 0 :=
  c2_search_invariant (build_matrix [deckD1] [(("X"), 1), (("X"), 2)])
    (build_matrix [deckD1] ([] : List (String × Nat))) 2 0 [false] [true]
    (Relation.ReflTransGen.single (by unfold StepSel; decide)) (by decide)

/-- C10: when the Step-1 filter leaves no relevant deck, `recommend` returns
a list with exactly one element, the empty deck-name list (not an empty
outer list): the seeded empty selection is terminal with value 0 and is the
unique memo entry. -/
theorem c10_no_relevant_decks (c : Collection) (roster : List Deck) (igs : Bool)
    (rares_limit mythics_limit : Nat) (starting_sel : List String)
    (h : relevant_decks c igs rares_limit mythics_limit roster = some []) :
    recommend c roster igs rares_limit mythics_limit starting_sel = some [[]] := by
  unfold recommend
  rw [h]
  rfl

/-- Deck "D0": plays 4 X, all owned in `collOwned` - nothing missing, so the
roster [D0] has no relevant deck. -/
def deckOwned : Deck :=
  { name := ("D0"), companion := none,
    amounts_main := [4], names_main := [("X")],
    amounts_side := [], names_side := [] }

/-- Collection owning all 4 copies of rare X. -/
def collOwned : Collection :=
  ⟨[(("X"), [⟨4, Rarity.rare, ("S")⟩])]⟩

/-- Witness for C10: a roster whose one deck is missing nothing yields the
single winning set [] (one element, the empty list). -/
theorem c10_no_relevant_decks_witness :
    recommend collOwned [deckOwned] false 5 5 [] = some [[]] :=
  c10_no_relevant_decks collOwned [deckOwned] false 5 5 [] (by decide)

theorem relevant_decks_missing_isSome (c : Collection) (igs : Bool)
    (rares_limit mythics_limit : Nat) (roster : List Deck) (ds : List Deck)
    (h : relevant_decks c igs rares_limit mythics_limit roster = some ds) :
    ∀ d ∈ ds, ∃ ms, c.missing d igs = some ms := by
  intro d hd
  obtain ⟨_, mr, _, h1, _⟩ := (c3_relevant_decks c roster igs rares_limit mythics_limit
    ds h d).mp hd
  unfold Collection.count_missing_of_rarity at h1
  obtain ⟨ms, hms, _⟩ := Option.map_eq_some'.mp h1
  exact ⟨ms, hms⟩

theorem build_rows_index_go_some (c : Collection) (igs : Bool) (target : Rarity) :
    ∀ ds : List Deck, ∀ rows0 : List (String × Nat),
      (∀ d ∈ ds, ∃ ms, c.missing d igs = some ms) →
      ∃ rows, build_rows_index_go c igs target ds rows0 = some rows := by
  intro ds
  induction ds with
  | nil => exact fun rows0 _ => ⟨rows0, rfl⟩
  | cons d rest ih =>
    intro rows0 h
    obtain ⟨ms, hms⟩ := h d (List.mem_cons_self d rest)
    obtain ⟨rows, hrows⟩ := ih
      (ms.foldl
        (fun rows2 e => if e.rarity = target then insertCopies e.name e.amount rows2
          else rows2)
        rows0)
      (fun x hx => h x (List.mem_cons_of_mem d hx))
    exact ⟨rows, by simp [build_rows_index_go, hms, hrows]⟩

/-- C9: the candidate deck masks come from the single machine word
`1usize << j`. (a) For every invocation with at most 64 relevant decks, every
candidate index `j` is below 64 and its mask is well defined with exactly the
intended deck bit set. (b) Whenever more than 64 decks survive the relevance
filter, the eager candidate collection evaluates `1usize << 64`, the checked
shift overflows, and `recommend` panics (modelled as `none`) - so the public
interface has an unstated upper bound of 64 relevant decks. -/
theorem c9_deck_mask_word_bound :
    (∀ k, k ≤ 64 → ∀ j, j < k →
      deckMask j = some (deckMaskBits j) ∧ (deckMaskBits j).length = 64 ∧
        ∀ i, i < 64 → ((deckMaskBits j).getD i false = true ↔ i = j)) ∧
    (∀ (c : Collection) (roster : List Deck) (igs : Bool)
        (rares_limit mythics_limit : Nat) (ss : List String) (ds : List Deck),
      relevant_decks c igs rares_limit mythics_limit roster = some ds →
      64 < ds.length →
      recommend c roster igs rares_limit mythics_limit ss = none) := by
  constructor
  · intro k hk j hj
    refine ⟨by unfold deckMask; rw [if_pos (by omega)], by simp [deckMaskBits], ?_⟩
    intro i hi
    have hget : (deckMaskBits j).getD i false = decide (i = j) := by
      unfold deckMaskBits
      rw [List.getD_eq_getElem?_getD]
      rw [List.getElem?_map]
      rw [List.getElem?_range hi]
      rfl
    rw [hget]
    simp
  · intro c roster igs rares_limit mythics_limit ss ds h hlen
    have hmiss := relevant_decks_missing_isSome c igs rares_limit mythics_limit roster ds h
    obtain ⟨rows1, hr1⟩ := build_rows_index_go_some c igs Rarity.rare ds [] hmiss
    obtain ⟨rows2, hr2⟩ := build_rows_index_go_some c igs Rarity.mythic ds [] hmiss
    have hb1 : build_rows_index c igs ds Rarity.rare = some rows1 := hr1
    have hb2 : build_rows_index c igs ds Rarity.mythic = some rows2 := hr2
    have hp : possible_moves (build_matrix ds rows1) (build_matrix ds rows2)
        rares_limit mythics_limit (ds.map (fun d => ss.contains d.name)) = none := by
      unfold possible_moves
      rw [if_pos (by simpa [build_matrix] using hlen)]
    have hinner : recommend_inner (build_matrix ds rows1) (build_matrix ds rows2)
        rares_limit mythics_limit (ds.length + 1) []
        (ds.map (fun d => ss.contains d.name)) = none := by
      rw [show recommend_inner (build_matrix ds rows1) (build_matrix ds rows2)
          rares_limit mythics_limit (ds.length + 1) []
          (ds.map (fun d => ss.contains d.name)) =
        visitStep (recommend_inner (build_matrix ds rows1) (build_matrix ds rows2)
            rares_limit mythics_limit ds.length)
          (build_matrix ds rows1) (build_matrix ds rows2) rares_limit mythics_limit []
          (ds.map (fun d => ss.contains d.name)) from rfl]
      unfold visitStep
      simp only [memLookup, hp]
    unfold recommend
    rw [h]
    simp only [hb1, hb2, hinner]

/-- Deck "DB": plays 4 X with 2 owned, i.e. missing 2 rares - individually
relevant under a budget of 2 rares. -/
def deckB : Deck :=
  { name := ("DB"), companion := none,
    amounts_main := [4], names_main := [("X")],
    amounts_side := [], names_side := [] }

/-- Collection owning 2 of the 4 needed copies of rare X. -/
def collB : Collection :=
  ⟨[(("X"), [⟨2, Rarity.rare, ("S")⟩])]⟩

/-- A roster of 65 copies of DB: all 65 decks are relevant under budgets
(2, 0). -/
def roster65 : List Deck := List.replicate 65 deckB

/-- Witness for C9: a concrete in-bounds mask is well defined (part a), and
on the 65-relevant-deck roster the search's shift overflows and `recommend`
fails (part b). -/
theorem c9_deck_mask_word_bound_witness :
    deckMask 3 = some (deckMaskBits 3) ∧
      recommend collB roster65 false 2 0 [] = none :=
  ⟨(c9_deck_mask_word_bound.1 64 (by decide) 3 (by decide)).1,
    c9_deck_mask_word_bound.2 collB roster65 false 2 0 [] (List.replicate 65 deckB)
      (by decide) (by decide)⟩

/-- C1 (code bug, failing input): under budgets (3, 0) both scenario decks
are relevant and the rare row index is
[(X,1), (X,2), (Z,1), (Z,2), (Z,3)].  `build_matrix` sets D2's bit at row
(X, 1) to 1 because `deck.contains("X", false)` is true - yet D2's missing
amount for X is 0 (it owns both copies it plays), so D2 does NOT require that
missing copy.  The bit is containment, not "missing amount >= copy index":
the matrix also ignores the copy index and hard-codes
`ignore_sideboard = false`. -/
theorem c1_matrix_containment_bug :
    relevant_decks collXZ false 3 0 [deckD1, deckD2] = some [deckD1, deckD2] ∧
      build_rows_index collXZ false [deckD1, deckD2] Rarity.rare =
        some [(("X"), 1), (("X"), 2), (("Z"), 1), (("Z"), 2), (("Z"), 3)] ∧
      ((build_matrix [deckD1, deckD2]
          [(("X"), 1), (("X"), 2), (("Z"), 1), (("Z"), 2), (("Z"), 3)]).getD 1 []).getD
        0 false = true ∧
      collXZ.missing deckD2 false =
        some [⟨("Z"), 3, Rarity.rare, ("S")⟩, ⟨("X"), 0, Rarity.rare, ("S")⟩] := by
  decide

/-- C4 (code bug, failing input): with the scenario roster and collection and
no starting selection, budgets (2, 0) let the search complete one deck (D1),
but the strictly larger budgets (3, 0) make D2 relevant, its 3 Z-rows join
the row index, containment pollutes both columns to 5 ones each, neither
single deck fits 3 rares, and the maximum achievable count drops to 0 (the
only winning set is empty).  Increasing the budget decreased the maximum. -/
theorem c4_budget_monotonicity_bug :
    recommend collXZ [deckD1, deckD2] false 2 0 [] = some [[("D1")]] ∧
      recommend collXZ [deckD1, deckD2] false 3 0 [] = some [[]] := by
  decide
